import Mathlib

/-!
Verification development for the art-fractals repository (Python sources
`src/py/mandelbrot.py`, `src/py/mandelbrot_float.py`,
`src/py/mandelbrot_complex.py`, `src/py/polycolor.py`).

Python floats are modelled by exact rationals (`ℚ`); numpy arrays by Lists
or by total functions `ℕ → ℕ → ℚ` (an uninitialized `np.empty` buffer is an
arbitrary initial function `g0`); early `return` inside a loop by an
`Option`-returning recursion; code that can produce a failure value
(a raised exception, or a division by zero producing NaN) by `Except`.
The nondeterministic completion order of `concurrent.futures.as_completed`
is modelled by quantifying over an arbitrary permutation `order` of the
submitted task list.
-/

/-! ## TileScheduler: `batch_ranges_with_size` (mandelbrot.py, lines 92-121)

Python:
```
rng = []
if N <= batch_size:
    rng.append((0, N))
else:
    n_batches = N // batch_size
    for i in range(n_batches):
        rng.append((i * batch_size, (i + 1) * batch_size))
    if batch_size * n_batches < N:
        rng.append((batch_size * n_batches, N))
return rng
```
-/

def batch_ranges_with_size (N batch_size : ℕ) : List (ℕ × ℕ) :=
  if N ≤ batch_size then [(0, N)]
  else
    (List.range (N / batch_size)).map (fun i => (i * batch_size, (i + 1) * batch_size)) ++
      (if batch_size * (N / batch_size) < N then [(batch_size * (N / batch_size), N)] else [])

/-- Membership characterization of `batch_ranges_with_size`. -/
theorem mem_batch_ranges_iff (N bs : ℕ) (p : ℕ × ℕ) :
    p ∈ batch_ranges_with_size N bs ↔
      (N ≤ bs ∧ p = (0, N)) ∨
      (bs < N ∧ ∃ i, i < N / bs ∧ p = (i * bs, (i + 1) * bs)) ∨
      (bs < N ∧ bs * (N / bs) < N ∧ p = (bs * (N / bs), N)) := by
  by_cases h : N ≤ bs
  · simp [batch_ranges_with_size, h, Nat.not_lt.mpr h]
  · have h' : bs < N := Nat.lt_of_not_le h
    by_cases h2 : bs * (N / bs) < N
    · simp only [batch_ranges_with_size, if_neg h, if_pos h2, List.mem_append,
        List.mem_map, List.mem_range, List.mem_singleton]
      constructor
      · rintro (⟨i, hi, rfl⟩ | rfl)
        · exact Or.inr (Or.inl ⟨h', i, hi, rfl⟩)
        · exact Or.inr (Or.inr ⟨h', h2, rfl⟩)
      · rintro (⟨hNbs, _⟩ | ⟨_, i, hi, rfl⟩ | ⟨_, _, rfl⟩)
        · exact absurd hNbs h
        · exact Or.inl ⟨i, hi, rfl⟩
        · exact Or.inr rfl
    · simp only [batch_ranges_with_size, if_neg h, if_neg h2, List.append_nil,
        List.mem_map, List.mem_range]
      constructor
      · rintro ⟨i, hi, rfl⟩
        exact Or.inr (Or.inl ⟨h', i, hi, rfl⟩)
      · rintro (⟨hNbs, _⟩ | ⟨_, i, hi, rfl⟩ | ⟨_, hlt, _⟩)
        · exact absurd hNbs h
        · exact ⟨i, hi, rfl⟩
        · exact absurd hlt h2

/-- Every emitted range is non-empty, ends within `N`, and has length at most `bs`. -/
theorem batch_ranges_bounds (N bs : ℕ) (hN : 1 ≤ N) (hbs : 1 ≤ bs) (p : ℕ × ℕ)
    (hp : p ∈ batch_ranges_with_size N bs) :
    p.1 < p.2 ∧ p.2 ≤ N ∧ p.2 - p.1 ≤ bs := by
  rcases (mem_batch_ranges_iff N bs p).mp hp with
    ⟨hle, rfl⟩ | ⟨hlt, i, hi, rfl⟩ | ⟨hlt, hrem, rfl⟩
  · exact ⟨hN, le_refl N, by simpa using hle⟩
  · refine ⟨?_, ?_, ?_⟩
    · exact (Nat.mul_lt_mul_right hbs).mpr (Nat.lt_succ_self i)
    · calc (i + 1) * bs ≤ (N / bs) * bs := Nat.mul_le_mul_right bs hi
        _ ≤ N := Nat.div_mul_le_self N bs
    · simp [Nat.succ_mul]
  · refine ⟨hrem, le_refl N, ?_⟩
    have hmod : bs * (N / bs) + N % bs = N := Nat.div_add_mod N bs
    have : N - bs * (N / bs) = N % bs := by omega
    rw [this]
    exact le_of_lt (Nat.mod_lt N hbs)

/-- The ranges are emitted with strictly increasing, gap-respecting bounds:
each range ends no later than any later range starts. -/
theorem batch_ranges_pairwise (N bs : ℕ) :
    (batch_ranges_with_size N bs).Pairwise (fun p q => p.2 ≤ q.1) := by
  unfold batch_ranges_with_size
  by_cases h : N ≤ bs
  · simp [h]
  · rw [if_neg h]
    rw [List.pairwise_append]
    refine ⟨?_, ?_, ?_⟩
    · rw [List.pairwise_map]
      exact (List.pairwise_lt_range _).imp
        (fun hij => Nat.mul_le_mul_right bs hij)
    · split <;> simp
    · intro a ha b hb
      rcases List.mem_map.mp ha with ⟨i, hi, rfl⟩
      rw [List.mem_range] at hi
      split at hb
      · rcases List.mem_singleton.mp hb with rfl
        calc (i + 1) * bs ≤ (N / bs) * bs := Nat.mul_le_mul_right bs hi
          _ = bs * (N / bs) := Nat.mul_comm _ _
      · exact absurd hb (List.not_mem_nil b)

/-- Coverage: the emitted ranges cover exactly the interval `[0, N)`. -/
theorem batch_ranges_cover (N bs : ℕ) (hbs : 1 ≤ bs) (j : ℕ) :
    j < N ↔ ∃ p ∈ batch_ranges_with_size N bs, p.1 ≤ j ∧ j < p.2 := by
  constructor
  · intro hj
    by_cases h : N ≤ bs
    · exact ⟨(0, N), (mem_batch_ranges_iff N bs _).mpr (Or.inl ⟨h, rfl⟩),
        Nat.zero_le j, hj⟩
    · have h' : bs < N := Nat.lt_of_not_le h
      by_cases hfull : j < bs * (N / bs)
      · refine ⟨(j / bs * bs, (j / bs + 1) * bs),
          (mem_batch_ranges_iff N bs _).mpr (Or.inr (Or.inl ⟨h', j / bs, ?_, rfl⟩)),
          Nat.div_mul_le_self j bs, ?_⟩
        · exact (Nat.div_lt_iff_lt_mul hbs).mpr (by rw [Nat.mul_comm] at hfull; exact hfull)
        · have h1 := Nat.div_add_mod j bs
          have h2 := Nat.mod_lt j hbs
          have h3 : (j / bs + 1) * bs = j / bs * bs + bs := Nat.succ_mul _ _
          have h4 : bs * (j / bs) = j / bs * bs := Nat.mul_comm _ _
          omega
      · refine ⟨(bs * (N / bs), N),
          (mem_batch_ranges_iff N bs _).mpr (Or.inr (Or.inr ⟨h', by omega, rfl⟩)), by omega, hj⟩
  · rintro ⟨p, hp, _, hjp⟩
    have hN : 1 ≤ N := by
      rcases (mem_batch_ranges_iff N bs p).mp hp with ⟨_, rfl⟩ | ⟨hlt, _⟩ | ⟨hlt, _⟩ <;> omega
    exact lt_of_lt_of_le hjp (batch_ranges_bounds N bs hN hbs p hp).2.1

/-- Every range except possibly the last has length exactly `bs`. -/
theorem batch_ranges_dropLast (N bs : ℕ) (p : ℕ × ℕ)
    (hp : p ∈ (batch_ranges_with_size N bs).dropLast) :
    p.2 - p.1 = bs := by
  unfold batch_ranges_with_size at hp
  by_cases h : N ≤ bs
  · rw [if_pos h] at hp
    simp at hp
  · rw [if_neg h] at hp
    have hmap : ∀ q ∈ (List.range (N / bs)).map
        (fun i => (i * bs, (i + 1) * bs)), q.2 - q.1 = bs := by
      rintro q hq
      rcases List.mem_map.mp hq with ⟨i, _, rfl⟩
      simp [Nat.succ_mul]
    split at hp
    · rw [List.dropLast_concat] at hp
      exact hmap p hp
    · rw [List.append_nil] at hp
      exact hmap p (List.dropLast_subset _ hp)

/-- Claim C1: for every `total_length ≥ 1` and `tile_size ≥ 1`,
`batch_ranges_with_size` returns a non-empty list of half-open ranges that are
individually non-empty, sorted in strictly increasing order, pairwise
disjoint, and exactly cover `[0, total_length)`; every range has length at
most `tile_size`, only the last range may be shorter, and in the degenerate
case `tile_size ≥ total_length` the result is the single range
`[0, total_length)`. -/
theorem batch_ranges_with_size_spec (N bs : ℕ) (hN : 1 ≤ N) (hbs : 1 ≤ bs) :
    batch_ranges_with_size N bs ≠ [] ∧
    (∀ p ∈ batch_ranges_with_size N bs, p.1 < p.2) ∧
    (batch_ranges_with_size N bs).Pairwise (fun p q => p.1 < q.1) ∧
    (batch_ranges_with_size N bs).Pairwise
      (fun p q => ∀ j, p.1 ≤ j → j < p.2 → ¬(q.1 ≤ j ∧ j < q.2)) ∧
    (∀ j, j < N ↔ ∃ p ∈ batch_ranges_with_size N bs, p.1 ≤ j ∧ j < p.2) ∧
    (∀ p ∈ batch_ranges_with_size N bs, p.2 - p.1 ≤ bs) ∧
    (∀ p ∈ (batch_ranges_with_size N bs).dropLast, p.2 - p.1 = bs) ∧
    (N ≤ bs → batch_ranges_with_size N bs = [(0, N)]) := by
  refine ⟨?_, ?_, ?_, ?_, batch_ranges_cover N bs hbs, ?_, batch_ranges_dropLast N bs, ?_⟩
  · intro hnil
    rcases (batch_ranges_cover N bs hbs 0).mp hN with ⟨p, hp, _⟩
    rw [hnil] at hp
    exact List.not_mem_nil p hp
  · exact fun p hp => (batch_ranges_bounds N bs hN hbs p hp).1
  · refine (batch_ranges_pairwise N bs).imp_of_mem ?_
    intro p q hp _ hpq
    exact lt_of_lt_of_le (batch_ranges_bounds N bs hN hbs p hp).1 hpq
  · refine (batch_ranges_pairwise N bs).imp ?_
    intro p q hpq j _ hjp ⟨hjq, _⟩
    omega
  · exact fun p hp => (batch_ranges_bounds N bs hN hbs p hp).2.2
  · intro h
    simp [batch_ranges_with_size, h]

/-- Witness for C1 at `total_length = 5`, `tile_size = 2`. -/
theorem batch_ranges_with_size_spec_witness :
    batch_ranges_with_size 5 2 ≠ [] ∧
    (∀ p ∈ batch_ranges_with_size 5 2, p.1 < p.2) ∧
    (batch_ranges_with_size 5 2).Pairwise (fun p q => p.1 < q.1) ∧
    (batch_ranges_with_size 5 2).Pairwise
      (fun p q => ∀ j, p.1 ≤ j → j < p.2 → ¬(q.1 ≤ j ∧ j < q.2)) ∧
    (∀ j, j < 5 ↔ ∃ p ∈ batch_ranges_with_size 5 2, p.1 ≤ j ∧ j < p.2) ∧
    (∀ p ∈ batch_ranges_with_size 5 2, p.2 - p.1 ≤ 2) ∧
    (∀ p ∈ (batch_ranges_with_size 5 2).dropLast, p.2 - p.1 = 2) ∧
    (5 ≤ 2 → batch_ranges_with_size 5 2 = [(0, 5)]) :=
  batch_ranges_with_size_spec 5 2 (by decide) (by decide)

/-! ## EscapeEvaluator: the three `fn_test` variants

All three Python variants iterate `z_{n+1} = z_n^2 + c` from `z_0 = 0` with an
early `return` as soon as the squared magnitude of the freshly computed
iterate exceeds a threshold (`4` in `mandelbrot.py`; `16` in
`mandelbrot_float.py`; `np.abs(zn) > 2.0`, i.e. squared magnitude `> 4`, in
`mandelbrot_complex.py`).  The loop with early return is embedded as
`escapeIter`, which returns `some k` when the escape test fires at loop index
`k` and `none` when the loop runs to completion. -/

def escapeIter (thr cx cy : ℚ) : ℚ → ℚ → ℕ → ℕ → Option ℕ
  | _, _, 0, _ => none
  | x, y, fuel + 1, k =>
    let xn := x * x - y * y + cx
    let yn := 2 * x * y + cy
    if thr < xn * xn + yn * yn then some k
    else escapeIter thr cx cy xn yn fuel (k + 1)

namespace Mandelbrot

/-- Smooth-fraction evaluator of `mandelbrot.py` (lines 17-29): escape at loop
index `i` returns `i / depth`; running the loop to completion returns `0`. -/
def fn_test (cx cy : ℚ) (depth : ℕ) : ℚ :=
  match escapeIter 4 cx cy 0 0 depth 0 with
  | some i => (i : ℚ) / (depth : ℚ)
  | none => 0

end Mandelbrot

namespace MandelbrotFloat

/-- Raw-count evaluator of `mandelbrot_float.py` (lines 22-36): escape at loop
index `i` returns `i`; running the loop to completion returns `max_it`.  The
value is stored into a float array, hence the `ℚ` codomain. -/
def fn_test (cx cy : ℚ) (max_it : ℕ) : ℚ :=
  match escapeIter 16 cx cy 0 0 max_it 0 with
  | some i => (i : ℚ)
  | none => (max_it : ℚ)

end MandelbrotFloat

namespace MandelbrotComplex

/-- Raw-count complex evaluator of `mandelbrot_complex.py` (lines 18-25):
`zn = z**2 + c` in components is `xn = x*x - y*y + cx`, `yn = 2*x*y + cy`, and
the test `np.abs(zn) > 2.0` is equivalent to `4 < xn*xn + yn*yn`. -/
def fn_test (cx cy : ℚ) (max_it : ℕ) : ℕ :=
  match escapeIter 4 cx cy 0 0 max_it 0 with
  | some i => i
  | none => max_it

end MandelbrotComplex

/-- An escape reported by `escapeIter` carries a loop index at least the
starting index `k`. -/
theorem escapeIter_le (thr cx cy : ℚ) (x y : ℚ) (fuel k i : ℕ)
    (h : escapeIter thr cx cy x y fuel k = some i) : k ≤ i := by
  induction fuel generalizing x y k with
  | zero => exact absurd h (by simp [escapeIter])
  | succ fuel ih =>
    rw [escapeIter] at h
    split at h
    · exact le_of_eq (Option.some_injective ℕ h)
    · exact le_trans (Nat.le_succ k) (ih _ _ _ h)

/-- An escape reported by `escapeIter` happens before the fuel runs out. -/
theorem escapeIter_lt (thr cx cy : ℚ) (x y : ℚ) (fuel k i : ℕ)
    (h : escapeIter thr cx cy x y fuel k = some i) : i < k + fuel := by
  induction fuel generalizing x y k with
  | zero => exact absurd h (by simp [escapeIter])
  | succ fuel ih =>
    rw [escapeIter] at h
    split at h
    · simp [← Option.some_injective ℕ h]
    · have := ih _ _ _ h
      omega

/-- Iterating from the origin with `c = 0` keeps the iterate at the origin, so
the escape test never fires for a positive threshold. -/
theorem escapeIter_origin (thr : ℚ) (hthr : 0 < thr) (fuel k : ℕ) :
    escapeIter thr 0 0 0 0 fuel k = none := by
  induction fuel generalizing k with
  | zero => rfl
  | succ fuel ih =>
    rw [escapeIter]
    simp only [mul_zero, zero_mul, sub_self, zero_sub, neg_zero, add_zero, zero_add]
    rw [if_neg (by linarith : ¬ thr < (0 : ℚ))]
    exact ih (k + 1)

/-- First step of the escape loop from the origin: the first computed iterate
is `c` itself, so the first escape test compares `cx*cx + cy*cy` with the
threshold. -/
theorem escapeIter_first_step (thr cx cy : ℚ) (m k : ℕ) :
    escapeIter thr cx cy 0 0 (m + 1) k =
      if thr < cx * cx + cy * cy then some k
      else escapeIter thr cx cy cx cy m (k + 1) := by
  rw [escapeIter]
  simp only [mul_zero, zero_mul, sub_self, zero_sub, neg_zero, zero_add, add_zero]

/-- Claim C7: for every positive threshold and depth ≥ 1, the escape loop at
the origin never escapes; the smooth-fraction variant returns its sentinel `0`
and the raw-count float variant returns its sentinel `max_it`. -/
theorem origin_never_escapes (thr : ℚ) (hthr : 0 < thr) (depth : ℕ) (_hd : 1 ≤ depth) :
    escapeIter thr 0 0 0 0 depth 0 = none ∧
    Mandelbrot.fn_test 0 0 depth = 0 ∧
    MandelbrotFloat.fn_test 0 0 depth = (depth : ℚ) :=
  ⟨escapeIter_origin thr hthr depth 0,
   by simp [Mandelbrot.fn_test, escapeIter_origin 4 (by norm_num) depth 0],
   by simp [MandelbrotFloat.fn_test, escapeIter_origin 16 (by norm_num) depth 0]⟩

/-- Witness for C7 at threshold `4`, depth `1`. -/
theorem origin_never_escapes_witness :
    escapeIter 4 0 0 0 0 1 0 = none ∧
    Mandelbrot.fn_test 0 0 1 = 0 ∧
    MandelbrotFloat.fn_test 0 0 1 = (1 : ℚ) :=
  origin_never_escapes 4 (by norm_num) 1 (le_refl 1)

/-- Counterexample to claim C5 as stated: at `c = (3, 0)` (so `|c| > 2`) with
`max_iterations = 1`, the raw-count float variant (escape threshold 16) does
not fire its escape test during the first loop iteration: the loop runs out
and the did-not-escape sentinel `max_it = 1` is returned instead of an escape
at iteration index 0. -/
theorem escape_first_iteration_cex :
    (4 : ℚ) < 3 * 3 + 0 * 0 ∧
    escapeIter 16 3 0 0 0 1 0 = none ∧
    MandelbrotFloat.fn_test 3 0 1 = 1 := by
  have h : escapeIter 16 3 0 0 0 1 0 = none := by
    simp only [escapeIter]
    norm_num
  exact ⟨by norm_num, h, by simp [MandelbrotFloat.fn_test, h]⟩

/-- Claim C5 (amended): for every `c` with `|c| > 2` and `max_iterations ≥ 1`,
the smooth-fraction variant (threshold 4) and the raw-count complex variant
(radius 2) fire the escape test during the first loop iteration (escape index
0); the raw-count float variant (threshold 16) fires during the first loop
iteration if and only if `cx*cx + cy*cy > 16`. -/
theorem escape_first_iteration (cx cy : ℚ) (m : ℕ) (hm : 1 ≤ m)
    (h : 4 < cx * cx + cy * cy) :
    escapeIter 4 cx cy 0 0 m 0 = some 0 ∧
    Mandelbrot.fn_test cx cy m = 0 ∧
    MandelbrotComplex.fn_test cx cy m = 0 ∧
    (escapeIter 16 cx cy 0 0 m 0 = some 0 ↔ 16 < cx * cx + cy * cy) := by
  obtain ⟨m, rfl⟩ : ∃ d, m = d + 1 := ⟨m - 1, by omega⟩
  have h4 : escapeIter 4 cx cy 0 0 (m + 1) 0 = some 0 := by
    rw [escapeIter_first_step, if_pos h]
  refine ⟨h4, by simp [Mandelbrot.fn_test, h4],
    by simp [MandelbrotComplex.fn_test, h4], ?_⟩
  rw [escapeIter_first_step]
  constructor
  · intro h16
    by_contra hc
    rw [if_neg hc] at h16
    have := escapeIter_le 16 cx cy cx cy m 1 0 h16
    omega
  · intro h16
    rw [if_pos h16]

/-- Witness for the amended C5 at `c = (3, 0)`, `max_iterations = 1`. -/
theorem escape_first_iteration_witness :
    escapeIter 4 3 0 0 0 1 0 = some 0 ∧
    Mandelbrot.fn_test 3 0 1 = 0 ∧
    MandelbrotComplex.fn_test 3 0 1 = 0 ∧
    (escapeIter 16 3 0 0 0 1 0 = some 0 ↔ (16 : ℚ) < 3 * 3 + 0 * 0) :=
  escape_first_iteration 3 0 1 (le_refl 1) (by norm_num)

/-- Claim C9: in the smooth-fraction evaluator a point escaping during the
very first iteration returns `0 / depth = 0`, the same value as the
did-not-escape sentinel: for every `depth ≥ 1`,
`fn_test 3 0 depth = 0 = fn_test 0 0 depth`, so points escaping at iteration
index 0 are indistinguishable from interior points. -/
theorem fn_test_first_escape_eq_sentinel (depth : ℕ) (hd : 1 ≤ depth) :
    Mandelbrot.fn_test 3 0 depth = 0 ∧ Mandelbrot.fn_test 0 0 depth = 0 := by
  obtain ⟨d, rfl⟩ : ∃ d, depth = d + 1 := ⟨depth - 1, by omega⟩
  constructor
  · have h4 : escapeIter 4 3 0 0 0 (d + 1) 0 = some 0 := by
      rw [escapeIter_first_step, if_pos (by norm_num)]
    simp [Mandelbrot.fn_test, h4]
  · simp [Mandelbrot.fn_test, escapeIter_origin 4 (by norm_num) (d + 1) 0]

/-- Witness for C9 at `depth = 1`. -/
theorem fn_test_first_escape_eq_sentinel_witness :
    Mandelbrot.fn_test 3 0 1 = 0 ∧ Mandelbrot.fn_test 0 0 1 = 0 :=
  fn_test_first_escape_eq_sentinel 1 (le_refl 1)

/-! ## GridBuilder: `np.linspace` and the axis construction in `mandelbrot`

`np.linspace(a, b, n)` returns `n` evenly spaced samples `a + i*(b-a)/(n-1)`
for `i = 0, ..., n-1`; with `n = 1` it returns the single sample `[a]` (the
start value) and with `n = 0` the empty array.  Both `mandelbrot.py` (lines
32-37) and `mandelbrot_float.py` (lines 39-48) build the axes as
`xx = np.linspace(xmin, xmax, size)` and `yy = np.linspace(ymax, ymin, size)`
(the imaginary axis descending from `ymax`). -/

def linspace (a b : ℚ) (n : ℕ) : List ℚ :=
  if n = 0 then []
  else if n = 1 then [a]
  else (List.range n).map (fun (i : ℕ) => a + (i : ℚ) * (b - a) / ((n : ℚ) - 1))

/-- Axis pair built by `mandelbrot` from the bounding box: real axis from
`xmin` to `xmax`, imaginary axis from `ymax` down to `ymin`. -/
def grid_axes (xmin xmax ymin ymax : ℚ) (image_size : ℕ) : List ℚ × List ℚ :=
  (linspace xmin xmax image_size, linspace ymax ymin image_size)

/-- A linspace axis has exactly `n` samples. -/
theorem linspace_length (a b : ℚ) (n : ℕ) : (linspace a b n).length = n := by
  unfold linspace
  split
  · simp [*]
  · split
    · simp [*]
    · rw [List.length_map, List.length_range]

/-- Counterexample to claim C6 as stated: with bounding box
`(-2, 1, -3/2, 3/2)` and `resolution = 1`, the single sample of the imaginary
axis is `ymax = 3/2`, not the min bound `ymin = -3/2` as the claim asserts. -/
theorem grid_axes_resolution_one_cex :
    (grid_axes (-2) 1 (-3/2) (3/2) 1).2 = [(3/2 : ℚ)] ∧ (3/2 : ℚ) ≠ (-3/2 : ℚ) := by
  constructor
  · rfl
  · norm_num

/-- Claim C6 (amended): `GridBuilder` with `resolution = 1` returns, for each
axis, the single sample equal to the start bound of that axis: `xmin` for the
real axis (its min bound) and `ymax` for the imaginary axis (its max bound,
since that axis is sampled descending from `ymax`). -/
theorem grid_axes_resolution_one (xmin xmax ymin ymax : ℚ) :
    grid_axes xmin xmax ymin ymax 1 = ([xmin], [ymax]) := rfl

/-! ## ParallelExecutor: tiles, merging, and order-independent assembly

A worker returns a dict `{"zz": buffer, "rmin": .., "rmax": .., "cmin": ..,
"cmax": ..}`; the coordinator copies `buffer` into
`zz[rmin:rmax, cmin:cmax]` for each result, in completion order.  `TileResult`
models the dict (the buffer as a total function on tile-local indices),
`mergeTile` models one slice assignment, and `assemble` models the merge loop
over the completion-ordered result list, starting from the uninitialized
`np.empty` output `g0`. -/

structure TileResult where
  zz : ℕ → ℕ → ℚ
  rmin : ℕ
  rmax : ℕ
  cmin : ℕ
  cmax : ℕ

/-- Cell `(r, c)` of the output lies in the slice written by tile `t`. -/
def covers (t : TileResult) (r c : ℕ) : Prop :=
  t.rmin ≤ r ∧ r < t.rmax ∧ t.cmin ≤ c ∧ c < t.cmax

instance (t : TileResult) (r c : ℕ) : Decidable (covers t r c) := by
  unfold covers
  infer_instance

/-- One slice assignment `zz[rmin:rmax, cmin:cmax] = tile.zz`. -/
def mergeTile (g : ℕ → ℕ → ℚ) (t : TileResult) : ℕ → ℕ → ℚ := fun r c =>
  if covers t r c then t.zz (r - t.rmin) (c - t.cmin) else g r c

/-- The merge loop over the completed results, in completion order. -/
def assemble (g0 : ℕ → ℕ → ℚ) (l : List TileResult) : ℕ → ℕ → ℚ :=
  l.foldl mergeTile g0

/-- A cell written by no tile of the list keeps its initial value. -/
theorem assemble_of_not_covered (g0 : ℕ → ℕ → ℚ) (l : List TileResult) (r c : ℕ)
    (h : ∀ t ∈ l, ¬ covers t r c) : assemble g0 l r c = g0 r c := by
  induction l generalizing g0 with
  | nil => rfl
  | cons t ts ih =>
    have hstep : assemble g0 (t :: ts) = assemble (mergeTile g0 t) ts := rfl
    rw [hstep, ih (mergeTile g0 t) (fun u hu => h u (List.mem_cons_of_mem t hu))]
    simp only [mergeTile, if_neg (h t (List.mem_cons_self t ts))]

/-- If every tile of the list that covers a cell writes the same value `v`
there, and at least one tile covers it, the assembled grid holds `v` at that
cell — independently of the order of the list. -/
theorem assemble_of_covered (g0 : ℕ → ℕ → ℚ) (l : List TileResult) (r c : ℕ) (v : ℚ)
    (hall : ∀ t ∈ l, covers t r c → t.zz (r - t.rmin) (c - t.cmin) = v)
    (hex : ∃ t ∈ l, covers t r c) : assemble g0 l r c = v := by
  induction l generalizing g0 with
  | nil => simp at hex
  | cons t ts ih =>
    have hstep : assemble g0 (t :: ts) = assemble (mergeTile g0 t) ts := rfl
    by_cases hc : ∃ u ∈ ts, covers u r c
    · rw [hstep]
      exact ih (mergeTile g0 t) (fun u hu hcov => hall u (List.mem_cons_of_mem t hu) hcov) hc
    · have hcov : covers t r c := by
        rcases hex with ⟨u, hu, hucov⟩
        rcases List.mem_cons.mp hu with rfl | hu'
        · exact hucov
        · exact absurd ⟨u, hu', hucov⟩ hc
      push_neg at hc
      rw [hstep, assemble_of_not_covered (mergeTile g0 t) ts r c hc]
      simp only [mergeTile, if_pos hcov]
      exact hall t (List.mem_cons_self t ts) hcov

/-- The cross product of row and column batch ranges, each tile carrying the
buffer of `pix` values at its global coordinates.  Both `compute_image` of
`mandelbrot.py` and `compute_image_mp` of `mandelbrot_float.py` submit
exactly this task list (with their respective per-pixel functions). -/
def tileGrid (pix : ℕ → ℕ → ℚ) (rows cols tile_size : ℕ) : List TileResult :=
  ((batch_ranges_with_size rows tile_size).map fun rb =>
    (batch_ranges_with_size cols tile_size).map fun cb =>
      ⟨fun i j => pix (rb.1 + i) (cb.1 + j), rb.1, rb.2, cb.1, cb.2⟩).flatten

/-- Each tile of `tileGrid` holds the `pix` value at every cell it covers. -/
theorem tileGrid_consistent (pix : ℕ → ℕ → ℚ) (rows cols ts : ℕ) (t : TileResult)
    (ht : t ∈ tileGrid pix rows cols ts) (r c : ℕ) (hcov : covers t r c) :
    t.zz (r - t.rmin) (c - t.cmin) = pix r c := by
  rcases List.mem_flatten.mp ht with ⟨l, hl, htl⟩
  rcases List.mem_map.mp hl with ⟨rb, _, rfl⟩
  rcases List.mem_map.mp htl with ⟨cb, _, rfl⟩
  obtain ⟨h1, _, h3, _⟩ := hcov
  simp only
  rw [Nat.add_sub_cancel' h1, Nat.add_sub_cancel' h3]

/-- Every in-range cell is covered by some tile of `tileGrid`. -/
theorem tileGrid_covers (pix : ℕ → ℕ → ℚ) (rows cols ts : ℕ) (hts : 1 ≤ ts)
    (r c : ℕ) (hr : r < rows) (hc : c < cols) :
    ∃ t ∈ tileGrid pix rows cols ts, covers t r c := by
  rcases (batch_ranges_cover rows ts hts r).mp hr with ⟨rb, hrb, hrb1, hrb2⟩
  rcases (batch_ranges_cover cols ts hts c).mp hc with ⟨cb, hcb, hcb1, hcb2⟩
  refine ⟨⟨fun i j => pix (rb.1 + i) (cb.1 + j), rb.1, rb.2, cb.1, cb.2⟩, ?_, ?_⟩
  · exact List.mem_flatten.mpr ⟨_, List.mem_map_of_mem _ hrb, List.mem_map_of_mem _ hcb⟩
  · exact ⟨hrb1, hrb2, hcb1, hcb2⟩

/-- Assembling the tiles of `tileGrid` in any completion order reproduces the
per-pixel function at every in-range cell. -/
theorem assemble_tileGrid (pix : ℕ → ℕ → ℚ) (rows cols ts : ℕ) (hts : 1 ≤ ts)
    (g0 : ℕ → ℕ → ℚ) (order : List TileResult)
    (horder : order.Perm (tileGrid pix rows cols ts))
    (r c : ℕ) (hr : r < rows) (hc : c < cols) :
    assemble g0 order r c = pix r c := by
  apply assemble_of_covered
  · intro t htm hcov
    exact tileGrid_consistent pix rows cols ts t (horder.mem_iff.mp htm) r c hcov
  · rcases tileGrid_covers pix rows cols ts hts r c hr hc with ⟨t, ht, hcov⟩
    exact ⟨t, horder.mem_iff.mpr ht, hcov⟩

namespace Mandelbrot

/-- `compute_tile` (mandelbrot.py lines 39-59): the tile-local buffer holds
`zz[i, j] = fn_test(xx[cmin + j], yy[rmin + i], depth)` together with the tile
bounds.  List accesses use `getD` with default `0`; in-range tiles only ever
access in-range indices. -/
def compute_tile (xx yy : List ℚ) (rmin rmax cmin cmax depth : ℕ) : TileResult :=
  ⟨fun i j => fn_test (xx.getD (cmin + j) 0) (yy.getD (rmin + i) 0) depth,
   rmin, rmax, cmin, cmax⟩

/-- The task list submitted by `compute_image` (lines 62-89): the cross
product of row batch ranges and column batch ranges, in submission order. -/
def submitted (xx yy : List ℚ) (depth tile_size : ℕ) : List TileResult :=
  ((batch_ranges_with_size yy.length tile_size).map fun rb =>
    (batch_ranges_with_size xx.length tile_size).map fun cb =>
      compute_tile xx yy rb.1 rb.2 cb.1 cb.2 depth).flatten

/-- `compute_image` (lines 62-89): the completed tiles, arriving in the
nondeterministic completion order `order`, are merged into the uninitialized
output `g0`; `n_workers` only sizes the process pool and does not enter the
value computation.  No normalization step follows (`fn_test` already returns
the smooth fraction). -/
def compute_image (xx yy : List ℚ) (depth n_workers tile_size : ℕ)
    (g0 : ℕ → ℕ → ℚ) (order : List TileResult) : ℕ → ℕ → ℚ :=
  assemble g0 order

/-- `mandelbrot` (lines 32-37): build the two linspace axes (imaginary axis
descending) and run the tiled computation. -/
def mandelbrot (xmin xmax ymin ymax : ℚ) (image_size depth n_workers tile_size : ℕ)
    (g0 : ℕ → ℕ → ℚ) (order : List TileResult) : ℕ → ℕ → ℚ :=
  compute_image (linspace xmin xmax image_size) (linspace ymax ymin image_size)
    depth n_workers tile_size g0 order

end Mandelbrot

namespace MandelbrotFloat

/-- `_inner_loop` (mandelbrot_float.py lines 51-59): identical tile loop, with
the raw-count `fn_test` of this file. -/
def inner_loop (xx yy : List ℚ) (rmin rmax cmin cmax max_it : ℕ) : TileResult :=
  ⟨fun i j => fn_test (xx.getD (cmin + j) 0) (yy.getD (rmin + i) 0) max_it,
   rmin, rmax, cmin, cmax⟩

/-- `compute_image` (lines 61-68): one sequential `_inner_loop` over the full
index space, then element-wise normalization by `max_it`. -/
def compute_image (xx yy : List ℚ) (max_it : ℕ) : ℕ → ℕ → ℚ :=
  fun r c => (inner_loop xx yy 0 yy.length 0 xx.length max_it).zz r c / (max_it : ℚ)

/-- The task list submitted by `compute_image_mp` (lines 71-95). -/
def submitted (xx yy : List ℚ) (max_it tile_size : ℕ) : List TileResult :=
  ((batch_ranges_with_size yy.length tile_size).map fun rb =>
    (batch_ranges_with_size xx.length tile_size).map fun cb =>
      inner_loop xx yy rb.1 rb.2 cb.1 cb.2 max_it).flatten

/-- `compute_image_mp` (lines 71-95): merge the completed tiles in completion
order `order` into the uninitialized output `g0`, then normalize element-wise
by `max_it`; `n_workers` only sizes the process pool. -/
def compute_image_mp (xx yy : List ℚ) (max_it n_workers tile_size : ℕ)
    (g0 : ℕ → ℕ → ℚ) (order : List TileResult) : ℕ → ℕ → ℚ :=
  fun r c => assemble g0 order r c / (max_it : ℚ)

end MandelbrotFloat

/-- Claim C2: for every pair of axis arrays, every `max_it ≥ 1`, every
`tile_size ≥ 1`, every `n_workers`, every initial (uninitialized) output
buffer, and every completion order of the tiles, the sequential and the
tiled-parallel executor of `mandelbrot_float.py` agree element for element:
`compute_image xx yy max_it = compute_image_mp xx yy max_it n_workers
tile_size` at every in-range cell. -/
theorem compute_image_mp_eq_compute_image (xx yy : List ℚ)
    (max_it n_workers tile_size : ℕ) (hmax : 1 ≤ max_it) (hts : 1 ≤ tile_size)
    (g0 : ℕ → ℕ → ℚ) (order : List TileResult)
    (horder : order.Perm (MandelbrotFloat.submitted xx yy max_it tile_size))
    (r c : ℕ) (hr : r < yy.length) (hc : c < xx.length) :
    MandelbrotFloat.compute_image_mp xx yy max_it n_workers tile_size g0 order r c
      = MandelbrotFloat.compute_image xx yy max_it r c := by
  have hperm : order.Perm
      (tileGrid (fun r c => MandelbrotFloat.fn_test (xx.getD c 0) (yy.getD r 0) max_it)
        yy.length xx.length tile_size) := horder
  unfold MandelbrotFloat.compute_image_mp MandelbrotFloat.compute_image
  rw [assemble_tileGrid _ _ _ _ hts g0 order hperm r c hr hc]
  simp [MandelbrotFloat.inner_loop]

/-- Witness for C2 on the 1×1 grid `xx = [3]`, `yy = [0]` with `max_it = 1`,
`n_workers = 4`, `tile_size = 1`, zero-initialized buffer, and the submission
order as completion order. -/
theorem compute_image_mp_eq_compute_image_witness :
    MandelbrotFloat.compute_image_mp [3] [0] 1 4 1 (fun _ _ => 0)
      (MandelbrotFloat.submitted [3] [0] 1 1) 0 0
      = MandelbrotFloat.compute_image [3] [0] 1 0 0 :=
  compute_image_mp_eq_compute_image [3] [0] 1 4 1 (le_refl 1) (le_refl 1)
    (fun _ _ => 0) (MandelbrotFloat.submitted [3] [0] 1 1)
    (List.Perm.refl _) 0 0 (by simp) (by simp)

/-- The smooth-fraction evaluator always returns a value in `[0, 1]`: an
escape at index `i < depth` yields `i / depth ∈ [0, 1)`, and the sentinel is
`0`. -/
theorem fn_test_mem_unit_interval (cx cy : ℚ) (depth : ℕ) :
    0 ≤ Mandelbrot.fn_test cx cy depth ∧ Mandelbrot.fn_test cx cy depth ≤ 1 := by
  unfold Mandelbrot.fn_test
  cases h : escapeIter 4 cx cy 0 0 depth 0 with
  | none => norm_num
  | some i =>
    have hi := escapeIter_lt 4 cx cy 0 0 depth 0 i h
    rw [Nat.zero_add] at hi
    have hdpos : (0 : ℚ) < (depth : ℚ) := by
      exact_mod_cast lt_of_le_of_lt (Nat.zero_le i) hi
    constructor
    · exact div_nonneg (Nat.cast_nonneg i) hdpos.le
    · rw [div_le_one hdpos]
      exact_mod_cast hi.le

/-- Claim C3: running `mandelbrot` on bounding box `(-2, 1, -3/2, 3/2)` with
`resolution = 101`, `depth = 50`, `worker_count = 3`, `tile_size = 20`, any
initial (uninitialized) output buffer, and any completion order of the tiles,
both axes have 101 samples, every in-range cell equals the per-pixel
evaluator value at that cell (hence the grid does not depend on the buffer or
the completion order: repeated runs are identical) and every value lies in
`[0, 1]`. -/
theorem mandelbrot_end_to_end (g0 : ℕ → ℕ → ℚ) (order : List TileResult) (r c : ℕ)
    (horder : order.Perm
      (Mandelbrot.submitted (linspace (-2) 1 101) (linspace (3/2) (-3/2) 101) 50 20))
    (hr : r < 101) (hc : c < 101) :
    (linspace (-2 : ℚ) 1 101).length = 101 ∧
    (linspace (3/2 : ℚ) (-3/2) 101).length = 101 ∧
    Mandelbrot.mandelbrot (-2) 1 (-3/2) (3/2) 101 50 3 20 g0 order r c
      = Mandelbrot.fn_test ((linspace (-2 : ℚ) 1 101).getD c 0)
          ((linspace (3/2 : ℚ) (-3/2) 101).getD r 0) 50 ∧
    0 ≤ Mandelbrot.mandelbrot (-2) 1 (-3/2) (3/2) 101 50 3 20 g0 order r c ∧
    Mandelbrot.mandelbrot (-2) 1 (-3/2) (3/2) 101 50 3 20 g0 order r c ≤ 1 := by
  have hperm : order.Perm
      (tileGrid (fun r c => Mandelbrot.fn_test ((linspace (-2 : ℚ) 1 101).getD c 0)
          ((linspace (3/2 : ℚ) (-3/2) 101).getD r 0) 50)
        (linspace (3/2 : ℚ) (-3/2) 101).length (linspace (-2 : ℚ) 1 101).length 20) :=
    horder
  have hval : Mandelbrot.mandelbrot (-2) 1 (-3/2) (3/2) 101 50 3 20 g0 order r c
      = Mandelbrot.fn_test ((linspace (-2 : ℚ) 1 101).getD c 0)
          ((linspace (3/2 : ℚ) (-3/2) 101).getD r 0) 50 := by
    unfold Mandelbrot.mandelbrot Mandelbrot.compute_image
    exact assemble_tileGrid _ _ _ _ (by norm_num) g0 order hperm r c
      (by rw [linspace_length]; exact hr) (by rw [linspace_length]; exact hc)
  refine ⟨linspace_length _ _ _, linspace_length _ _ _, hval, ?_, ?_⟩
  · rw [hval]
    exact (fn_test_mem_unit_interval _ _ _).1
  · rw [hval]
    exact (fn_test_mem_unit_interval _ _ _).2

/-- Witness for C3 at cell `(0, 0)` with zero-initialized buffer and the
submission order as completion order. -/
theorem mandelbrot_end_to_end_witness :
    (linspace (-2 : ℚ) 1 101).length = 101 ∧
    (linspace (3/2 : ℚ) (-3/2) 101).length = 101 ∧
    Mandelbrot.mandelbrot (-2) 1 (-3/2) (3/2) 101 50 3 20 (fun _ _ => 0)
      (Mandelbrot.submitted (linspace (-2) 1 101) (linspace (3/2) (-3/2) 101) 50 20) 0 0
      = Mandelbrot.fn_test ((linspace (-2 : ℚ) 1 101).getD 0 0)
          ((linspace (3/2 : ℚ) (-3/2) 101).getD 0 0) 50 ∧
    0 ≤ Mandelbrot.mandelbrot (-2) 1 (-3/2) (3/2) 101 50 3 20 (fun _ _ => 0)
      (Mandelbrot.submitted (linspace (-2) 1 101) (linspace (3/2) (-3/2) 101) 50 20) 0 0 ∧
    Mandelbrot.mandelbrot (-2) 1 (-3/2) (3/2) 101 50 3 20 (fun _ _ => 0)
      (Mandelbrot.submitted (linspace (-2) 1 101) (linspace (3/2) (-3/2) 101) 50 20) 0 0 ≤ 1 :=
  mandelbrot_end_to_end (fun _ _ => 0)
    (Mandelbrot.submitted (linspace (-2) 1 101) (linspace (3/2) (-3/2) 101) 50 20) 0 0
    (List.Perm.refl _) (by norm_num) (by norm_num)

/-! ## Failure semantics of `compute_image` (mandelbrot.py lines 74-89)

`compute_image` submits every tile task, then collects results with
`futures.as_completed`; the first `future.result()` call that re-raises a
worker exception aborts the loop, the exception propagates out of the
executor block unchanged, and the output array is never assembled.  The
worker outcome is abstracted as `work`, mapping a (row range, column range)
task to either a raised exception (`Except.error`, carrying the raw exception
value) or a `TileResult`. -/

def tile_tasks (rows cols tile_size : ℕ) : List ((ℕ × ℕ) × (ℕ × ℕ)) :=
  ((batch_ranges_with_size rows tile_size).map fun rb =>
    (batch_ranges_with_size cols tile_size).map fun cb => (rb, cb)).flatten

/-- The `as_completed` collection loop: the first raising future aborts the
run with its raw exception. -/
def collect_results : List (Except String TileResult) → Except String (List TileResult)
  | [] => Except.ok []
  | Except.error e :: _ => Except.error e
  | Except.ok t :: rest => (collect_results rest).map (fun l => t :: l)

/-- `compute_image` with possibly-failing workers: collect in completion
order `order`, and only on full success assemble the output grid. -/
def compute_image_exc (work : ℕ × ℕ → ℕ × ℕ → Except String TileResult)
    (rows cols tile_size : ℕ) (g0 : ℕ → ℕ → ℚ)
    (order : List ((ℕ × ℕ) × (ℕ × ℕ))) : Except String (ℕ → ℕ → ℚ) :=
  (collect_results (order.map fun t => work t.1 t.2)).map (assemble g0)

/-- If some collected result is an error, collection returns one of the
collected errors. -/
theorem collect_results_error (l : List (Except String TileResult))
    (hex : ∃ x ∈ l, ∃ e, x = Except.error e) :
    ∃ e, collect_results l = Except.error e ∧ Except.error e ∈ l := by
  induction l with
  | nil => simp at hex
  | cons hd rest ih =>
    cases hd with
    | error e => exact ⟨e, rfl, List.mem_cons_self _ _⟩
    | ok t =>
      have hex' : ∃ x ∈ rest, ∃ e, x = Except.error e := by
        rcases hex with ⟨x, hx, e, rfl⟩
        rcases List.mem_cons.mp hx with h | h
        · exact absurd h (by simp)
        · exact ⟨_, h, e, rfl⟩
      rcases ih hex' with ⟨e, hcol, hmem⟩
      refine ⟨e, ?_, List.mem_cons_of_mem _ hmem⟩
      show (collect_results rest).map (fun l => t :: l) = Except.error e
      rw [hcol]
      rfl

/-- Claim C8 (amended): if any tile's computation raises, the whole run
fails — `compute_image` returns the raw exception of some failing tile (the
first in completion order) and no partial output grid is returned; the
propagated exception is the worker's exception value unchanged, with no tile
coordinates attached to it. -/
theorem compute_image_propagates_failure
    (work : ℕ × ℕ → ℕ × ℕ → Except String TileResult)
    (rows cols tile_size : ℕ) (g0 : ℕ → ℕ → ℚ)
    (order : List ((ℕ × ℕ) × (ℕ × ℕ)))
    (horder : order.Perm (tile_tasks rows cols tile_size))
    (t0 : (ℕ × ℕ) × (ℕ × ℕ)) (ht0 : t0 ∈ tile_tasks rows cols tile_size)
    (e0 : String) (he0 : work t0.1 t0.2 = Except.error e0) :
    ∃ e, compute_image_exc work rows cols tile_size g0 order = Except.error e ∧
      ∃ t ∈ tile_tasks rows cols tile_size, work t.1 t.2 = Except.error e := by
  have hex : ∃ x ∈ order.map (fun t => work t.1 t.2), ∃ e, x = Except.error e :=
    ⟨work t0.1 t0.2, List.mem_map_of_mem _ (horder.mem_iff.mpr ht0), e0, he0⟩
  rcases collect_results_error _ hex with ⟨e, hcol, hmem⟩
  rcases List.mem_map.mp hmem with ⟨t, htm, hte⟩
  refine ⟨e, ?_, t, horder.mem_iff.mp htm, hte⟩
  show (collect_results (order.map fun t => work t.1 t.2)).map (assemble g0)
    = Except.error e
  rw [hcol]
  rfl

def dummyTile : TileResult := ⟨fun _ _ => 0, 0, 0, 0, 0⟩

/-- Worker that raises exactly on the row range `(0, 1)`. -/
def workA : ℕ × ℕ → ℕ × ℕ → Except String TileResult := fun rb _ =>
  if rb = (0, 1) then Except.error "boom" else Except.ok dummyTile

/-- Worker that raises exactly on the row range `(1, 2)`. -/
def workB : ℕ × ℕ → ℕ × ℕ → Except String TileResult := fun rb _ =>
  if rb = (1, 2) then Except.error "boom" else Except.ok dummyTile

/-- Counterexample to claim C8 as stated: the propagated error does not
identify the failing tile and carries no tile coordinates.  On a 2×1 grid
split into two tiles, a run whose first tile fails with exception value
"boom" and a run whose second (different) tile fails with the same exception
value produce identical outcomes, so the caller cannot tell which tile
failed. -/
theorem compute_image_failure_cex :
    compute_image_exc workA 2 1 1 (fun _ _ => 0) (tile_tasks 2 1 1)
      = Except.error "boom" ∧
    compute_image_exc workB 2 1 1 (fun _ _ => 0) (tile_tasks 2 1 1)
      = Except.error "boom" ∧
    workA (0, 1) (0, 1) = Except.error "boom" ∧
    workA (1, 2) (0, 1) ≠ Except.error "boom" ∧
    workB (1, 2) (0, 1) = Except.error "boom" ∧
    workB (0, 1) (0, 1) ≠ Except.error "boom" := by
  refine ⟨rfl, rfl, rfl, ?_, rfl, ?_⟩ <;> simp [workA, workB, dummyTile]

/-- Witness for the amended C8: on the 2×1 grid with `workA` and the
submission order as completion order, the failing first tile's raw exception
propagates. -/
theorem compute_image_propagates_failure_witness :
    ∃ e, compute_image_exc workA 2 1 1 (fun _ _ => 0) (tile_tasks 2 1 1)
        = Except.error e ∧
      ∃ t ∈ tile_tasks 2 1 1, workA t.1 t.2 = Except.error e :=
  compute_image_propagates_failure workA 2 1 1 (fun _ _ => 0) (tile_tasks 2 1 1)
    (List.Perm.refl _) ((0, 1), (0, 1)) (by decide) "boom" rfl

/-! ## PolyColorMapper: `polycolor.py`

`np.sin` and `np.pi` are transcendental, so the embedding takes them as
parameters `sinf : ℚ → ℚ` and `piQ : ℚ`; every theorem below holds for every
interpretation of them.  The random draw `np.random.rand(3, order + 1)` is
modelled by an explicit coefficient-function argument (channel and term index
to value).  `_normalize` computes `(data - min) / (max - min)` over the whole
buffer; when `max = min` every element is a `0/0` division producing NaN —
exact rationals have no NaN, so that outcome is modelled as an error value. -/

structure PolyColor where
  order : ℕ
  color : ℕ → ℕ → ℚ
  init_colors : Option (ℕ → ℕ → ℚ)

/-- `_init_colors` (polycolor.py lines 10-12): draws
`self.color = np.random.rand(3, self.order + 1)` (the draw is the explicit
argument `fresh`); the method body has no `return` statement, so the call
itself evaluates to the Python value `None`, returned as the second
component. -/
def _init_colors (pc : PolyColor) (fresh : ℕ → ℕ → ℚ) :
    PolyColor × Option (ℕ → ℕ → ℚ) :=
  ({ pc with color := fresh }, none)

/-- `__init__` (lines 6-8): sets `self.order`, then
`self.init_colors = self._init_colors()` (which first sets `self.color` to
the draw; the pre-init placeholder color is immediately overwritten). -/
def PolyColor.init (order : ℕ) (fresh : ℕ → ℕ → ℚ) : PolyColor :=
  let s0 : PolyColor := ⟨order, fun _ _ => 0, none⟩
  let r := _init_colors s0 fresh
  { r.1 with init_colors := r.2 }

/-- `_normalize` (lines 44-47): min-max normalization over the whole 2D
buffer (`np.min`/`np.max` range over all elements). -/
def _normalize (data : List (List ℚ)) : Except String (List (List ℚ)) :=
  match data.flatten with
  | [] => Except.error "empty buffer"
  | x :: xs =>
    let mn := xs.foldl min x
    let mx := xs.foldl max x
    if mx = mn then Except.error "max equals min: division by zero produces NaN"
    else Except.ok (data.map (List.map fun v => (v - mn) / (mx - mn)))

/-- `_color_map_channel` (lines 29-36): starting from a zero buffer,
accumulate `sin((coeff^i * 2π) * v) + coeff * v^i` over the terms
`i = 0, ..., order`, then min-max normalize the channel buffer. -/
def _color_map_channel (sinf : ℚ → ℚ) (piQ : ℚ) (pc : PolyColor)
    (data : List (List ℚ)) (channel : ℕ) : Except String (List (List ℚ)) :=
  _normalize (data.map (List.map fun v =>
    (List.range (pc.order + 1)).foldl
      (fun acc i => acc + sinf (pc.color channel i ^ i * 2 * piQ * v)
        + pc.color channel i * v ^ i) 0))

/-- `_cvtcolor` (lines 49-52): scale by 255 and cast to an unsigned 8-bit
integer; on the `[0, 1]` values produced by `_normalize` the C float-to-int
cast is the floor.  Python applies it to the stacked 3-channel buffer; it is
applied here to each channel plane, element-wise identically. -/
def _cvtcolor (data : List (List ℚ)) : List (List ℕ) :=
  data.map (List.map fun v => (⌊(255 : ℚ) * v⌋).toNat)

/-- `apply` (lines 14-22): first re-draws the coefficients via
`_init_colors` (the per-call draw is `fresh`), then computes the three
channel planes from the updated instance and converts to 8-bit.  The `List
(List ℚ)` input type realizes the `ndim == 2` requirement checked by the
Python code; the channel-last buffer is returned as an `(r, g, b)` triple of
planes, and a worker exception from a channel propagates (Python raises out
of `apply`). -/
def PolyColor.apply (sinf : ℚ → ℚ) (piQ : ℚ) (pc : PolyColor)
    (fresh : ℕ → ℕ → ℚ) (data : List (List ℚ)) :
    Except String (List (List ℕ) × List (List ℕ) × List (List ℕ)) :=
  let pc' := (_init_colors pc fresh).1
  match _color_map_channel sinf piQ pc' data 0 with
  | Except.error e => Except.error e
  | Except.ok ch0 =>
    match _color_map_channel sinf piQ pc' data 1 with
    | Except.error e => Except.error e
    | Except.ok ch1 =>
      match _color_map_channel sinf piQ pc' data 2 with
      | Except.error e => Except.error e
      | Except.ok ch2 => Except.ok (_cvtcolor ch0, _cvtcolor ch1, _cvtcolor ch2)

/-- On a constant 2×2 field every channel buffer is constant, so the channel
normalization hits `max = min` and produces the division-by-zero outcome,
for every interpretation of `np.sin` and `np.pi` and every instance. -/
theorem color_map_channel_constant (sinf : ℚ → ℚ) (piQ : ℚ) (pc : PolyColor)
    (v : ℚ) (channel : ℕ) :
    _color_map_channel sinf piQ pc [[v, v], [v, v]] channel
      = Except.error "max equals min: division by zero produces NaN" := by
  simp [_color_map_channel, _normalize, min_self, max_self]

/-- Claim C4 (code evidence): on the constant 2×2 field of value `1/2`, with
`order = 1` and all coefficients `1/2`, `PolyColor.apply` runs into the
unguarded `(data - min) / (max - min)` with `max = min`: the division by zero
produces NaN (modelled as the error outcome) instead of an explicitly handled
degenerate case.  This holds for every interpretation of `np.sin` and
`np.pi`. -/
theorem apply_constant_field_div_zero (sinf : ℚ → ℚ) (piQ : ℚ) :
    PolyColor.apply sinf piQ (PolyColor.init 1 (fun _ _ => 1/2)) (fun _ _ => 1/2)
      [[1/2, 1/2], [1/2, 1/2]]
      = Except.error "max equals min: division by zero produces NaN" := by
  simp [PolyColor.apply, color_map_channel_constant]

/-- Channel computation depends on the instance only through `order` and
`color`. -/
theorem color_map_channel_congr (sinf : ℚ → ℚ) (piQ : ℚ) (p q : PolyColor)
    (ho : p.order = q.order) (hc : p.color = q.color)
    (data : List (List ℚ)) (channel : ℕ) :
    _color_map_channel sinf piQ p data channel
      = _color_map_channel sinf piQ q data channel := by
  simp [_color_map_channel, ho, hc]

/-- Claim C10: `apply` re-draws the whole 3×(order+1) coefficient array (via
`_init_colors`) at the start of every call, so the result depends only on the
input field and the per-call draw — two instances with the same order but
arbitrary different stored `color`/`init_colors` give identical results — and
`_init_colors` returns `None`, so the `init_colors` attribute set by
`__init__` is always `None`. -/
theorem apply_resamples_coefficients (sinf : ℚ → ℚ) (piQ : ℚ)
    (pc1 pc2 : PolyColor) (h : pc1.order = pc2.order)
    (fresh : ℕ → ℕ → ℚ) (data : List (List ℚ)) :
    PolyColor.apply sinf piQ pc1 fresh data = PolyColor.apply sinf piQ pc2 fresh data ∧
    (∀ (n : ℕ) (f : ℕ → ℕ → ℚ), (PolyColor.init n f).init_colors = none) := by
  refine ⟨?_, fun n f => rfl⟩
  have e : ∀ ch, _color_map_channel sinf piQ ((_init_colors pc1 fresh).1) data ch
      = _color_map_channel sinf piQ ((_init_colors pc2 fresh).1) data ch :=
    fun ch => color_map_channel_congr sinf piQ ((_init_colors pc1 fresh).1)
      ((_init_colors pc2 fresh).1) h rfl data ch
  simp only [PolyColor.apply, e]

/-- Witness for C10: instances of order 2 with stored colors all `0` versus
all `7` behave identically under the same per-call draw. -/
theorem apply_resamples_coefficients_witness :
    (PolyColor.apply (fun q => q) 3 (PolyColor.init 2 (fun _ _ => 0))
        (fun _ _ => 1/3) [[0, 1]]
      = PolyColor.apply (fun q => q) 3 ⟨2, fun _ _ => 7, none⟩
          (fun _ _ => 1/3) [[0, 1]]) ∧
    (∀ (n : ℕ) (f : ℕ → ℕ → ℚ), (PolyColor.init n f).init_colors = none) :=
  apply_resamples_coefficients (fun q => q) 3 (PolyColor.init 2 (fun _ _ => 0))
    ⟨2, fun _ _ => 7, none⟩ rfl (fun _ _ => 1/3) [[0, 1]]
